import Mathlib

/-!
Verification of the GBILI graph-construction pipeline (gbili.py).

The embedding mirrors the two phases of the program:

* `labeled_nearest` (phase 1): for every object of a chunk, a brute-force scan
  over the labeled set keeping the strictly smaller distance (so the first
  minimum encountered wins, initial state `(-1, +inf)`), together with the
  k1-nearest-neighbour list obtained by querying the spatial index for `k1 + 1`
  neighbours and discarding the first entry.
* `gbili` (phase 2): for every object of a chunk, the mutual-KNN filter
  (skipping a neighbour equal to the object itself), the informativeness
  scores `d1 + d2`, the weights `1 / (1 + d1)`, and the `argsort[:k2]`
  selection.
* `mainChunks` / `pipeline`: the orchestration of `main`, with Python-2
  semantics of `part = obj_count / threads` (floor division, `Int.fdiv`),
  `xrange(0, obj_count, part)` (including the `ValueError` on step zero and
  the empty range on a negative step), `ZeroDivisionError` on `threads = 0`,
  dictionary-update merging of the phase-1 results and list concatenation of
  the phase-2 results.  When the index query pads (dataset smaller than
  `k1 + 1`), every phase-2 worker hits a missing `dic_knn` key and dies with
  `KeyError`, and the run fails with no output (`PyErr.keyError`).

Distances are modelled as exact rationals supplied by an abstract function
`dist : ℕ → ℕ → ℚ` standing for the external Euclidean-distance calls; the
Python `float('inf')` initial value of the scan lives in `WithTop ℚ`.
-/

/-- Lexicographic order on (distance, index) pairs: strictly smaller distance
first, ties broken by ascending index.  This is the order of the results of
the spatial index. -/
def pairLe (a b : ℚ × ℕ) : Prop :=
  a.1 < b.1 ∨ (a.1 = b.1 ∧ a.2 ≤ b.2)

instance : DecidableRel pairLe := fun a b => by
  unfold pairLe
  exact inferInstance

instance : IsTotal (ℚ × ℕ) pairLe := by
  constructor
  intro a b
  rcases lt_trichotomy a.1 b.1 with h | h | h
  · exact Or.inl (Or.inl h)
  · rcases Nat.le_total a.2 b.2 with h2 | h2
    · exact Or.inl (Or.inr ⟨h, h2⟩)
    · exact Or.inr (Or.inr ⟨h.symm, h2⟩)
  · exact Or.inr (Or.inl h)

instance : IsTrans (ℚ × ℕ) pairLe := by
  constructor
  intro a b c hab hbc
  rcases hab with h1 | ⟨h1, h1'⟩ <;> rcases hbc with h2 | ⟨h2, h2'⟩
  · exact Or.inl (h1.trans h2)
  · exact Or.inl (h2 ▸ h1)
  · exact Or.inl (h1 ▸ h2)
  · exact Or.inr ⟨h1.trans h2, h1'.trans h2'⟩

/-- Modelled from the spec: the NearestNeighborIndex (spec section 4.1) is the
external `scipy.spatial.KDTree.query(data[o], k)` call.  For `k ≤ N` it
returns the `k` nearest neighbours of object `o` in ascending order of
Euclidean distance, ties broken deterministically by index order (the section
4.1 contract).  For `k > N` the library does not raise — the spec's
InsufficientDataError of sections 4.2 and 7 exists nowhere in the code — but
returns length-`k` arrays whose missing neighbours are padded with distance
+inf and index `N` (the documented scipy behaviour); the padding index `N` is
what makes a `k1 + 1 > N` run crash in phase 2 (see `pipeline`). -/
def kdtreeQuery (dist : ℕ → ℕ → ℚ) (N o k : ℕ) : List (WithTop ℚ × ℕ) :=
  ((List.insertionSort pairLe ((List.range N).map (fun j => (dist o j, j)))).map
      (fun p => (((p.1 : ℚ) : WithTop ℚ), p.2))).take k ++
    List.replicate (k - N) (⊤, N)

/-- The value `dic_knn[o]` sent by phase 1 (gbili.py lines 58-60): the raw
query result for `k1 + 1` neighbours with its first entry discarded,
including any padding entries. -/
def knnPadded (dist : ℕ → ℕ → ℚ) (N k1 o : ℕ) : List (WithTop ℚ × ℕ) :=
  (kdtreeQuery dist N o (k1 + 1)).drop 1

/-- A query entry kept when its distance is finite (a true neighbour);
padding entries (distance +inf) yield none. -/
def finiteEntry (p : WithTop ℚ × ℕ) : Option (ℚ × ℕ) :=
  WithTop.recTopCoe none (fun q => some (q, p.2)) p.1

/-- The true-neighbour entries of a query result, as exact rationals. -/
def finitePart (l : List (WithTop ℚ × ℕ)) : List (ℚ × ℕ) :=
  l.filterMap finiteEntry

/-- KnnList of object `o`: the true-neighbour part of `dic_knn[o]`.  When
`k1 + 1 ≤ N` this is all of `dic_knn[o]`; when padding is present every
phase-2 worker crashes at the first padded index before reading any padded
distance (see `pipeline`), so scores and weights are only ever computed from
these entries. -/
def knnList (dist : ℕ → ℕ → ℚ) (N k1 o : ℕ) : List (ℚ × ℕ) :=
  finitePart (knnPadded dist N k1 o)

/-- The inner scan of `labeled_nearest` (gbili.py lines 45-53): fold over the
labeled set starting from `min_label = -1`, `min_dist = float('inf')`,
updating on a strictly smaller distance. -/
def labeledNearestScan (distTo : ℕ → ℚ) (labeledSet : List ℕ) : ℤ × WithTop ℚ :=
  labeledSet.foldl
    (fun acc l =>
      if ((distTo l : ℚ) : WithTop ℚ) < acc.2 then (((l : ℕ) : ℤ), ((distTo l : ℚ) : WithTop ℚ))
      else acc)
    (-1, ⊤)

/-- Per-object output of phase 1: the `buff[obj]` pair and the `dic_knn[obj]`
list. -/
def phase1Obj (dist : ℕ → ℕ → ℚ) (labeledSet : List ℕ) (N k1 o : ℕ) :
    (ℤ × WithTop ℚ) × List (WithTop ℚ × ℕ) :=
  (labeledNearestScan (fun l => dist o l) labeledSet, knnPadded dist N k1 o)

/-- The phase-1 worker `labeled_nearest` on one chunk of objects: it sends back
its `(buff, dic_knn)` dictionaries, modelled as an association list keyed by
object id. -/
def labeled_nearest (dist : ℕ → ℕ → ℚ) (labeledSet : List ℕ) (N k1 : ℕ)
    (objSubset : List ℕ) : List (ℕ × ((ℤ × WithTop ℚ) × List (WithTop ℚ × ℕ))) :=
  objSubset.map (fun o => (o, phase1Obj dist labeledSet N k1 o))

/-- Surviving candidates of object `obj` in phase 2 (gbili.py lines 81-85):
KNN entries that are not `obj` itself and whose own KNN list contains `obj`
(the mutuality check). -/
def mutualCands (dicKnn : ℕ → List (ℚ × ℕ)) (obj : ℕ) : List (ℚ × ℕ) :=
  (dicKnn obj).filter
    (fun p => decide (obj ≠ p.2 ∧ obj ∈ (dicKnn p.2).map Prod.snd))

/-- Informativeness score of a surviving candidate (gbili.py line 90):
`d1 + d2` where `d1` is the recorded distance to the neighbour and `d2` the
neighbour's distance to its nearest labeled vertex. -/
def candScore (buff : ℕ → ℤ × WithTop ℚ) (p : ℚ × ℕ) : WithTop ℚ :=
  ((p.1 : ℚ) : WithTop ℚ) + (buff p.2).2

/-- Candidate edge of a surviving candidate (gbili.py line 92):
`(obj, nn, 1 / (1 + d1))`. -/
def candEdge (obj : ℕ) (p : ℚ × ℕ) : ℕ × ℕ × ℚ :=
  (obj, p.2, 1 / (1 + p.1))

/-- Index comparison used to model `np.argsort` on the score list: ascending
score, ties broken by ascending position (a fixed deterministic rule). -/
def scoreLe (ds : List (WithTop ℚ)) (i j : ℕ) : Prop :=
  ds.getD i ⊤ < ds.getD j ⊤ ∨ (ds.getD i ⊤ = ds.getD j ⊤ ∧ i ≤ j)

instance (ds : List (WithTop ℚ)) : DecidableRel (scoreLe ds) := fun i j => by
  unfold scoreLe
  exact inferInstance

instance (ds : List (WithTop ℚ)) : IsTotal ℕ (scoreLe ds) := by
  constructor
  intro i j
  rcases lt_trichotomy (ds.getD i ⊤) (ds.getD j ⊤) with h | h | h
  · exact Or.inl (Or.inl h)
  · rcases Nat.le_total i j with h2 | h2
    · exact Or.inl (Or.inr ⟨h, h2⟩)
    · exact Or.inr (Or.inr ⟨h.symm, h2⟩)
  · exact Or.inr (Or.inl h)

instance (ds : List (WithTop ℚ)) : IsTrans ℕ (scoreLe ds) := by
  constructor
  intro i j k hij hjk
  rcases hij with h1 | ⟨h1, h1'⟩ <;> rcases hjk with h2 | ⟨h2, h2'⟩
  · exact Or.inl (h1.trans h2)
  · exact Or.inl (h2 ▸ h1)
  · exact Or.inl (h1 ▸ h2)
  · exact Or.inr ⟨h1.trans h2, h1'.trans h2'⟩

/-- Model of `np.argsort` over the score list: the positions `0..len-1` sorted
by ascending score (deterministic tie-break by position). -/
def argsort (ds : List (WithTop ℚ)) : List ℕ :=
  List.insertionSort (scoreLe ds) (List.range ds.length)

/-- Per-object edge emission of the phase-2 kernel (gbili.py lines 76-95). -/
def gbiliObj (k2 : ℕ) (buff : ℕ → ℤ × WithTop ℚ) (dicKnn : ℕ → List (ℚ × ℕ))
    (obj : ℕ) : List (ℕ × ℕ × ℚ) :=
  ((argsort ((mutualCands dicKnn obj).map (candScore buff))).take k2).map
    (fun idx => ((mutualCands dicKnn obj).map (candEdge obj)).getD idx (0, 0, 0))

/-- The phase-2 worker `gbili` on one chunk of objects: concatenation of the
per-object emissions, in chunk order. -/
def gbili (k2 : ℕ) (buff : ℕ → ℤ × WithTop ℚ) (dicKnn : ℕ → List (ℚ × ℕ))
    (objSubset : List ℕ) : List (ℕ × ℕ × ℚ) :=
  objSubset.flatMap (gbiliObj k2 buff dicKnn)

/-- Python exceptions a run can die with.  `zeroDivisionError` and
`valueError` are hit by `main` while building the chunk list; `keyError` is
an uncaught KeyError in a phase-2 worker (missing `dic_knn` key at line 83),
which `main` observes as EOFError at `receiver.recv()` — either way the run
fails with no output, modelled as this single error value. -/
inductive PyErr : Type
  | zeroDivisionError
  | valueError
  | keyError
deriving DecidableEq

/-- The start indices `xrange(0, N, step)` of the chunk loops in `main`, for a
positive step: `ceil(N / step)` starts. -/
def chunkStarts (N step : ℕ) : List ℕ :=
  (List.range ((N + step - 1) / step)).map (fun j => j * step)

/-- The chunks `obj_set[i:i + part]` dispatched by `main`, for a positive
step. -/
def chunksOf (N step : ℕ) : List (List ℕ) :=
  (chunkStarts N step).map (fun i => ((List.range N).drop i).take step)

/-- Chunk computation of `main` (gbili.py lines 146-156), with Python-2
semantics: `part = obj_count / threads` is floor division (raising
`ZeroDivisionError` when `threads = 0`), and `xrange(0, obj_count, part)`
raises `ValueError` when `part = 0` and is empty when `part < 0`. -/
def mainChunks (N : ℕ) (P : ℤ) : Except PyErr (List (List ℕ)) :=
  if P = 0 then Except.error PyErr.zeroDivisionError
  else
    let part : ℤ := Int.fdiv (N : ℤ) P
    if part = 0 then Except.error PyErr.valueError
    else if part < 0 then Except.ok []
    else Except.ok (chunksOf N part.toNat)

/-- One Python `dict.update` call on a dictionary modelled as a lookup
function: later entries overwrite earlier ones. -/
def updAssoc {β : Type} (d : ℕ → Option β) (kvs : List (ℕ × β)) : ℕ → Option β :=
  kvs.foldl (fun f kv => fun k => if k = kv.1 then some kv.2 else f k) d

/-- The phase-1 merge loop of `main` (gbili.py lines 158-164): successive
`dict.update` calls, one per worker, in chunk order, starting from the empty
dictionary. -/
def mergeChunks {β : Type} (outs : List (List (ℕ × β))) : ℕ → Option β :=
  outs.foldl updAssoc (fun _ => none)

/-- The `buff` map as a total function of the object id. -/
def buffOf (dist : ℕ → ℕ → ℚ) (labeledSet : List ℕ) : ℕ → ℤ × WithTop ℚ :=
  fun o => labeledNearestScan (fun l => dist o l) labeledSet

/-- The `dic_knn` map as a total function of the object id. -/
def knnOf (dist : ℕ → ℕ → ℚ) (N k1 : ℕ) : ℕ → List (ℚ × ℕ) :=
  fun o => knnList dist N k1 o

/-- The lookup guard of the phase-2 workers: each worker enumerates
`dic_knn[obj]` for every `obj` of its chunk and, for every listed index `nn`
not equal to `obj` (the line-82 skip), performs the `dic_knn[nn]` lookup of
line 83 (and the `buff[nn]` lookup of line 89 — the two dictionaries have the
same keys).  The guard is true exactly when every such lookup finds its key;
otherwise the first missing key raises KeyError and kills the run. -/
def phase2Guard (merged : ℕ → Option ((ℤ × WithTop ℚ) × List (WithTop ℚ × ℕ)))
    (chunks : List (List ℕ)) : Bool :=
  chunks.all (fun c => c.all (fun o =>
    (((merged o).map Prod.snd).getD []).all
      (fun p => decide (o = p.2) || (merged p.2).isSome)))

/-- Phases 1 and 2 of `main` on an already-computed chunk list: phase-1
workers, dictionary merge, phase-2 workers (which crash the run with KeyError
whenever a `dic_knn` lookup misses — exactly the padded-index case),
concatenation of the edge lists in chunk order. -/
def pipelineBody (dist : ℕ → ℕ → ℚ) (labeledSet : List ℕ) (N k1 k2 : ℕ)
    (chunks : List (List ℕ)) : Except PyErr (List (ℕ × ℕ × ℚ)) :=
  let merged := mergeChunks (chunks.map (labeled_nearest dist labeledSet N k1))
  let buffF : ℕ → ℤ × WithTop ℚ := fun o => ((merged o).map Prod.fst).getD (-1, ⊤)
  let knnF : ℕ → List (ℚ × ℕ) := fun o => ((merged o).map (fun v => finitePart v.2)).getD []
  if phase2Guard merged chunks = true
  then Except.ok (chunks.flatMap (gbili k2 buffF knnF))
  else Except.error PyErr.keyError

/-- The whole pipeline of `main`: chunking, then both phases. -/
def pipeline (dist : ℕ → ℕ → ℚ) (labeledSet : List ℕ) (N k1 k2 : ℕ) (P : ℤ) :
    Except PyErr (List (ℕ × ℕ × ℚ)) :=
  (mainChunks N P).bind (pipelineBody dist labeledSet N k1 k2)

/-- The pipeline output written as one pass over `0..N-1`, the reference for
the partition-invariance results. -/
def pipelineSeq (dist : ℕ → ℕ → ℚ) (labeledSet : List ℕ) (N k1 k2 : ℕ) :
    List (ℕ × ℕ × ℚ) :=
  (List.range N).flatMap
    (gbiliObj k2 (buffOf dist labeledSet) (knnOf dist N k1))

/-! Chunking lemmas: Python-2 `xrange(0, N, part)` slicing facts. -/

lemma range_drop_map (N s : ℕ) :
    (List.range N).drop s = (List.range (N - s)).map (fun x => s + x) := by
  apply List.ext_getElem
  · simp
  · intro n h1 h2
    simp only [List.getElem_drop, List.getElem_range, List.getElem_map]

lemma flatChunks_aux :
    ∀ (c step : ℕ), 1 ≤ step → ∀ N : ℕ, N ≤ c * step → c * step < N + step →
      ((List.range c).map (fun j => j * step)).flatMap
        (fun i => ((List.range N).drop i).take step) = List.range N := by
  intro c
  induction c with
  | zero =>
    intro step hstep N h1 h2
    have hN : N = 0 := by omega
    subst hN
    simp
  | succ c ih =>
    intro step hstep N h1 h2
    have hsm : (c + 1) * step = c * step + step := by ring
    rw [List.range_succ_eq_map, List.map_cons, List.flatMap_cons]
    have h0 : (0 : ℕ) * step = 0 := by ring
    rw [h0, List.drop_zero, List.flatMap_map, List.flatMap_map]
    by_cases hNs : step ≤ N
    · have htail : ((List.range c).flatMap fun a =>
          ((List.range N).drop (Nat.succ a * step)).take step) =
          ((List.range c).flatMap fun a =>
            ((((List.range (N - step)).drop (a * step)).take step).map (fun x => step + x))) := by
        apply List.flatMap_congr
        intro j _
        have hjs : Nat.succ j * step = step + j * step := by rw [Nat.succ_mul]; ring
        rw [hjs, ← List.drop_drop, range_drop_map N step]
        rw [← List.map_drop, ← List.map_take]
      rw [htail]
      have hmap : ((List.range c).flatMap fun a =>
            ((((List.range (N - step)).drop (a * step)).take step).map (fun x => step + x))) =
          (((List.range c).map (fun j => j * step)).flatMap
            (fun i => ((List.range (N - step)).drop i).take step)).map (fun x => step + x) := by
        rw [List.map_flatMap, List.flatMap_map]
      rw [hmap, ih step hstep (N - step) (by omega) (by omega)]
      rw [List.take_range]
      have hmin : min step N = step := by omega
      rw [hmin]
      have hN : N = step + (N - step) := by omega
      conv_rhs => rw [hN, List.range_add]
    · have hc : c = 0 := by
        by_contra hc
        have : 1 ≤ c := by omega
        have : step ≤ c * step := by
          calc step = 1 * step := by ring
          _ ≤ c * step := Nat.mul_le_mul_right step this
        omega
      subst hc
      simp only [List.range_zero, List.map_nil, List.flatMap_nil, List.append_nil]
      rw [List.take_range]
      have : min step N = N := by omega
      rw [this]

lemma ceil_le (N step : ℕ) (h : 1 ≤ step) : N ≤ ((N + step - 1) / step) * step := by
  have h1 := Nat.div_add_mod (N + step - 1) step
  have h2 : (N + step - 1) % step < step := Nat.mod_lt _ (by omega)
  set c := (N + step - 1) / step with hc
  set r := (N + step - 1) % step with hr
  have hq : step * c + r = N + step - 1 := h1
  have hcomm : c * step = step * c := by ring
  omega

lemma ceil_lt (N step : ℕ) (h : 1 ≤ step) : ((N + step - 1) / step) * step < N + step := by
  have h1 : ((N + step - 1) / step) * step ≤ N + step - 1 := Nat.div_mul_le_self _ _
  omega

lemma chunksOf_flatten (N step : ℕ) (h : 1 ≤ step) :
    (chunksOf N step).flatten = List.range N := by
  have haux := flatChunks_aux ((N + step - 1) / step) step h N (ceil_le N step h) (ceil_lt N step h)
  rw [List.flatMap_map] at haux
  rw [chunksOf, chunkStarts, ← List.flatMap_id, List.flatMap_map, List.flatMap_map]
  simpa using haux

lemma chunksOf_length (N step : ℕ) :
    (chunksOf N step).length = (N + step - 1) / step := by
  simp [chunksOf, chunkStarts]

lemma chunksOf_mem_length (N step : ℕ) (c : List ℕ) (hc : c ∈ chunksOf N step) :
    c.length ≤ step := by
  rw [chunksOf] at hc
  rcases List.mem_map.mp hc with ⟨i, _, rfl⟩
  simp only [List.length_take, List.length_drop, List.length_range]
  omega

lemma chunksOf_get_length (N step : ℕ) (h : 1 ≤ step) (i : ℕ)
    (hi : i < (chunksOf N step).length) (hlast : i + 1 < (chunksOf N step).length) :
    ((chunksOf N step).get ⟨i, hi⟩).length = step := by
  have hc : (chunksOf N step).length = (N + step - 1) / step := chunksOf_length N step
  set c0 := (N + step - 1) / step with hc0
  have hget : (chunksOf N step).get ⟨i, hi⟩ =
      ((List.range N).drop (i * step)).take step := by
    rw [List.get_eq_getElem]
    simp only [chunksOf, chunkStarts, List.getElem_map, List.getElem_range]
  rw [hget]
  simp only [List.length_take, List.length_drop, List.length_range]
  have hbound : (i + 1) * step ≤ (c0 - 1) * step := by
    apply Nat.mul_le_mul_right
    omega
  have hlt : c0 * step < N + step := ceil_lt N step h
  have hsm : c0 * step = (c0 - 1) * step + step := by
    have : c0 - 1 + 1 = c0 := by omega
    calc c0 * step = (c0 - 1 + 1) * step := by rw [this]
    _ = (c0 - 1) * step + step := by rw [Nat.succ_mul]
  have hip : (i + 1) * step = i * step + step := by rw [Nat.succ_mul]
  omega

lemma mainChunks_valid (N P : ℕ) (h1 : 1 ≤ P) (h2 : P ≤ N) :
    mainChunks N (P : ℤ) = Except.ok (chunksOf N (N / P)) := by
  have hP0 : (P : ℤ) ≠ 0 := by
    simp only [ne_eq, Nat.cast_eq_zero]
    omega
  have hfd : Int.fdiv (N : ℤ) (P : ℤ) = ((N / P : ℕ) : ℤ) := by
    rw [Int.fdiv_eq_tdiv (by positivity) (by positivity)]
    rw [Int.ofNat_tdiv]
  have hdiv1 : 1 ≤ N / P := (Nat.one_le_div_iff (by omega)).mpr h2
  rw [mainChunks, if_neg hP0]
  simp only [hfd]
  rw [if_neg (by exact_mod_cast (by omega : ¬(N / P : ℕ) = 0))]
  rw [if_neg (by exact_mod_cast (by omega : ¬((N / P : ℕ) : ℤ) < 0))]
  rw [Int.toNat_natCast]

/-! Merging lemmas: the `dict.update` fold of `main`. -/

lemma updAssoc_lookup {β : Type} (g : ℕ → β) :
    ∀ (c : List ℕ) (d : ℕ → Option β) (k : ℕ),
      updAssoc d (c.map (fun o => (o, g o))) k = if k ∈ c then some (g k) else d k := by
  intro c
  induction c with
  | nil => intro d k; simp [updAssoc]
  | cons x c ih =>
    intro d k
    rw [List.map_cons]
    rw [updAssoc, List.foldl_cons]
    have : (c.map (fun o => (o, g o))).foldl
        (fun f kv => fun k => if k = kv.1 then some kv.2 else f k)
        (fun k => if k = x then some (g x) else d k) k =
        updAssoc (fun k => if k = x then some (g x) else d k) (c.map (fun o => (o, g o))) k := rfl
    rw [this, ih]
    by_cases hk : k ∈ c
    · simp [hk, List.mem_cons]
    · by_cases hx : k = x
      · subst hx
        simp [hk]
      · simp [hk, hx]

lemma mergeChunks_lookup {β : Type} (g : ℕ → β) :
    ∀ (cs : List (List ℕ)) (k : ℕ),
      mergeChunks (cs.map (fun c => c.map (fun o => (o, g o)))) k =
        if k ∈ cs.flatten then some (g k) else none := by
  have haux : ∀ (cs : List (List ℕ)) (d : ℕ → Option β) (k : ℕ),
      (cs.map (fun c => c.map (fun o => (o, g o)))).foldl updAssoc d k =
        if k ∈ cs.flatten then some (g k) else d k := by
    intro cs
    induction cs with
    | nil => intro d k; simp
    | cons c cs ih =>
      intro d k
      rw [List.map_cons, List.foldl_cons, ih]
      rw [List.flatten_cons]
      by_cases hk : k ∈ cs.flatten
      · simp [hk, List.mem_append]
      · rw [updAssoc_lookup]
        by_cases hc : k ∈ c
        · simp [hk, hc, List.mem_append]
        · simp [hk, hc, List.mem_append]
  intro cs k
  rw [mergeChunks, haux]

/-! Lemmas on the argsort model and on the phase-2 kernel. -/

lemma argsort_perm (ds : List (WithTop ℚ)) :
    (argsort ds).Perm (List.range ds.length) :=
  List.perm_insertionSort _ _

lemma argsort_length (ds : List (WithTop ℚ)) : (argsort ds).length = ds.length := by
  rw [(argsort_perm ds).length_eq, List.length_range]

lemma argsort_mem (ds : List (WithTop ℚ)) (i : ℕ) (h : i ∈ argsort ds) : i < ds.length := by
  have := (argsort_perm ds).mem_iff.mp h
  rwa [List.mem_range] at this

lemma map_getD_range (ds : List (WithTop ℚ)) :
    (List.range ds.length).map (fun i => ds.getD i ⊤) = ds := by
  apply List.ext_getElem
  · simp
  · intro n h1 h2
    simp only [List.getElem_map, List.getElem_range]
    exact List.getD_eq_getElem ds ⊤ h2

lemma argsort_map_getD (ds : List (WithTop ℚ)) :
    (argsort ds).map (fun i => ds.getD i ⊤) =
      List.insertionSort (fun a b : WithTop ℚ => a ≤ b) ds := by
  apply List.eq_of_perm_of_sorted (r := fun a b : WithTop ℚ => a ≤ b)
  · have h1 : ((argsort ds).map (fun i => ds.getD i ⊤)).Perm ds := by
      have h2 := (argsort_perm ds).map (fun i => ds.getD i ⊤)
      rwa [map_getD_range ds] at h2
    exact h1.trans (List.perm_insertionSort _ ds).symm
  · have hs := List.sorted_insertionSort (scoreLe ds) (List.range ds.length)
    exact List.Pairwise.map _ (fun a b hab => by
      rcases hab with h | ⟨h, h2⟩
      · exact le_of_lt h
      · exact le_of_eq h) hs
  · exact List.sorted_insertionSort _ ds

lemma mutualCands_mem (dicKnn : ℕ → List (ℚ × ℕ)) (obj : ℕ) (p : ℚ × ℕ)
    (hp : p ∈ mutualCands dicKnn obj) :
    p ∈ dicKnn obj ∧ obj ≠ p.2 ∧ obj ∈ (dicKnn p.2).map Prod.snd := by
  rw [mutualCands, List.mem_filter] at hp
  exact ⟨hp.1, of_decide_eq_true hp.2⟩

lemma gbiliObj_mem (k2 : ℕ) (buff : ℕ → ℤ × WithTop ℚ) (dicKnn : ℕ → List (ℚ × ℕ))
    (obj : ℕ) (e : ℕ × ℕ × ℚ) (he : e ∈ gbiliObj k2 buff dicKnn obj) :
    ∃ p, p ∈ mutualCands dicKnn obj ∧ e = candEdge obj p := by
  rw [gbiliObj] at he
  rcases List.mem_map.mp he with ⟨i, hi, rfl⟩
  have hiarg : i ∈ argsort ((mutualCands dicKnn obj).map (candScore buff)) :=
    (List.take_sublist _ _).subset hi
  have hilt := argsort_mem _ _ hiarg
  rw [List.length_map] at hilt
  have hlt2 : i < ((mutualCands dicKnn obj).map (candEdge obj)).length := by
    rw [List.length_map]
    exact hilt
  rw [List.getD_eq_getElem _ _ hlt2, List.getElem_map]
  exact ⟨(mutualCands dicKnn obj)[i], List.getElem_mem _, rfl⟩

lemma gbiliObj_length (k2 : ℕ) (buff : ℕ → ℤ × WithTop ℚ) (dicKnn : ℕ → List (ℚ × ℕ))
    (obj : ℕ) :
    (gbiliObj k2 buff dicKnn obj).length = min k2 (mutualCands dicKnn obj).length := by
  rw [gbiliObj, List.length_map, List.length_take, argsort_length, List.length_map]

lemma gbiliObj_fst (k2 : ℕ) (buff : ℕ → ℤ × WithTop ℚ) (dicKnn : ℕ → List (ℚ × ℕ))
    (obj : ℕ) (e : ℕ × ℕ × ℚ) (he : e ∈ gbiliObj k2 buff dicKnn obj) : e.1 = obj := by
  rcases gbiliObj_mem _ _ _ _ _ he with ⟨p, _, rfl⟩
  rfl

/-! Characterization of the labeled-nearest scan (phase 1). -/

lemma scan_aux (distTo : ℕ → ℚ) :
    ∀ (ls : List ℕ) (acc : ℤ × WithTop ℚ),
      (ls.foldl (fun acc l => if ((distTo l : ℚ) : WithTop ℚ) < acc.2
          then (((l : ℕ) : ℤ), ((distTo l : ℚ) : WithTop ℚ)) else acc) acc = acc ∧
        ∀ i, ∀ hi : i < ls.length, acc.2 ≤ ((distTo ls[i] : ℚ) : WithTop ℚ)) ∨
      (∃ j, ∃ hj : j < ls.length,
        ls.foldl (fun acc l => if ((distTo l : ℚ) : WithTop ℚ) < acc.2
          then (((l : ℕ) : ℤ), ((distTo l : ℚ) : WithTop ℚ)) else acc) acc =
            (((ls[j] : ℕ) : ℤ), ((distTo ls[j] : ℚ) : WithTop ℚ)) ∧
        ((distTo ls[j] : ℚ) : WithTop ℚ) < acc.2 ∧
        (∀ i, ∀ hi : i < ls.length, distTo ls[j] ≤ distTo ls[i]) ∧
        (∀ i, ∀ hi : i < ls.length, i < j → distTo ls[j] < distTo ls[i])) := by
  intro ls
  induction ls with
  | nil =>
    intro acc
    left
    refine ⟨rfl, ?_⟩
    intro i hi
    simp at hi
  | cons x ls ih =>
    intro acc
    rw [List.foldl_cons]
    by_cases hx : ((distTo x : ℚ) : WithTop ℚ) < acc.2
    · rw [if_pos hx]
      rcases ih (((x : ℕ) : ℤ), ((distTo x : ℚ) : WithTop ℚ)) with ⟨heq, hall⟩ | ⟨j, hj, heq, hlt, hmin, hfirst⟩
      · right
        refine ⟨0, by simp, ?_, ?_, ?_, ?_⟩
        · simp only [List.getElem_cons_zero]
          exact heq
        · simpa using hx
        · intro i hi
          match i with
          | 0 => simp
          | i + 1 =>
            have hi2 : i < ls.length := by simpa using hi
            have h2 : ((distTo x : ℚ) : WithTop ℚ) ≤ ((distTo ls[i] : ℚ) : WithTop ℚ) :=
              hall i hi2
            rw [List.getElem_cons_succ]
            rw [List.getElem_cons_zero]
            exact_mod_cast h2
        · intro i hi hlt0
          omega
      · right
        refine ⟨j + 1, by simpa using hj, ?_, ?_, ?_, ?_⟩
        · rw [heq, List.getElem_cons_succ]
        · rw [List.getElem_cons_succ]
          calc ((distTo ls[j] : ℚ) : WithTop ℚ) < ((distTo x : ℚ) : WithTop ℚ) := hlt
          _ < acc.2 := hx
        · intro i hi
          match i with
          | 0 =>
            rw [List.getElem_cons_succ, List.getElem_cons_zero]
            have : ((distTo ls[j] : ℚ) : WithTop ℚ) < ((distTo x : ℚ) : WithTop ℚ) := hlt
            exact le_of_lt (by exact_mod_cast this)
          | i + 1 =>
            have hi2 : i < ls.length := by simpa using hi
            rw [List.getElem_cons_succ, List.getElem_cons_succ]
            exact hmin i hi2
        · intro i hi hij
          match i with
          | 0 =>
            rw [List.getElem_cons_succ, List.getElem_cons_zero]
            have : ((distTo ls[j] : ℚ) : WithTop ℚ) < ((distTo x : ℚ) : WithTop ℚ) := hlt
            exact_mod_cast this
          | i + 1 =>
            have hi2 : i < ls.length := by simpa using hi
            rw [List.getElem_cons_succ, List.getElem_cons_succ]
            exact hfirst i hi2 (by omega)
    · rw [if_neg hx]
      push_neg at hx
      rcases ih acc with ⟨heq, hall⟩ | ⟨j, hj, heq, hlt, hmin, hfirst⟩
      · left
        refine ⟨heq, ?_⟩
        intro i hi
        match i with
        | 0 =>
          rw [List.getElem_cons_zero]
          exact hx
        | i + 1 =>
          have hi2 : i < ls.length := by simpa using hi
          rw [List.getElem_cons_succ]
          exact hall i hi2
      · right
        refine ⟨j + 1, by simpa using hj, ?_, ?_, ?_, ?_⟩
        · rw [heq, List.getElem_cons_succ]
        · rw [List.getElem_cons_succ]
          exact hlt
        · intro i hi
          match i with
          | 0 =>
            rw [List.getElem_cons_succ, List.getElem_cons_zero]
            have h2 : ((distTo ls[j] : ℚ) : WithTop ℚ) < ((distTo x : ℚ) : WithTop ℚ) :=
              lt_of_lt_of_le hlt hx
            exact le_of_lt (by exact_mod_cast h2)
          | i + 1 =>
            have hi2 : i < ls.length := by simpa using hi
            rw [List.getElem_cons_succ, List.getElem_cons_succ]
            exact hmin i hi2
        · intro i hi hij
          match i with
          | 0 =>
            rw [List.getElem_cons_succ, List.getElem_cons_zero]
            have h2 : ((distTo ls[j] : ℚ) : WithTop ℚ) < ((distTo x : ℚ) : WithTop ℚ) :=
              lt_of_lt_of_le hlt hx
            exact_mod_cast h2
          | i + 1 =>
            have hi2 : i < ls.length := by simpa using hi
            rw [List.getElem_cons_succ, List.getElem_cons_succ]
            exact hfirst i hi2 (by omega)

lemma labeledNearestScan_spec (distTo : ℕ → ℚ) (ls : List ℕ) (h : ls ≠ []) :
    ∃ j, ∃ hj : j < ls.length,
      labeledNearestScan distTo ls = (((ls[j] : ℕ) : ℤ), ((distTo ls[j] : ℚ) : WithTop ℚ)) ∧
      (∀ i, ∀ hi : i < ls.length, distTo ls[j] ≤ distTo ls[i]) ∧
      (∀ i, ∀ hi : i < ls.length, i < j → distTo ls[j] < distTo ls[i]) := by
  rcases scan_aux distTo ls (-1, ⊤) with ⟨heq, hall⟩ | ⟨j, hj, heq, hlt, hmin, hfirst⟩
  · exfalso
    have h0 : 0 < ls.length := List.length_pos.mpr h
    have := hall 0 h0
    simp at this
  · exact ⟨j, hj, heq, hmin, hfirst⟩

/-! Lemmas on the modelled index query and the KnnList. -/

lemma kdtreeQuery_mem (dist : ℕ → ℕ → ℚ) (N o k : ℕ) (p : WithTop ℚ × ℕ)
    (hp : p ∈ kdtreeQuery dist N o k) :
    (p.2 < N ∧ p.1 = ((dist o p.2 : ℚ) : WithTop ℚ)) ∨ p = (⊤, N) := by
  rw [kdtreeQuery, List.mem_append] at hp
  rcases hp with hp | hp
  · left
    have hp2 := (List.take_sublist _ _).subset hp
    rcases List.mem_map.mp hp2 with ⟨q, hq, rfl⟩
    have hq2 : q ∈ (List.range N).map (fun j => (dist o j, j)) :=
      (List.perm_insertionSort _ _).mem_iff.mp hq
    rcases List.mem_map.mp hq2 with ⟨j, hj, rfl⟩
    exact ⟨List.mem_range.mp hj, rfl⟩
  · exact Or.inr (List.mem_replicate.mp hp).2

lemma knnPadded_mem (dist : ℕ → ℕ → ℚ) (N k1 o : ℕ) (p : WithTop ℚ × ℕ)
    (hp : p ∈ knnPadded dist N k1 o) :
    (p.2 < N ∧ p.1 = ((dist o p.2 : ℚ) : WithTop ℚ)) ∨ p = (⊤, N) :=
  kdtreeQuery_mem dist N o (k1 + 1) p ((List.drop_sublist _ _).subset hp)

lemma finiteEntry_coe (q : ℚ) (j : ℕ) :
    finiteEntry (((q : ℚ) : WithTop ℚ), j) = some (q, j) := by
  rw [finiteEntry]
  exact WithTop.recTopCoe_coe _ _ q

lemma finiteEntry_top (j : ℕ) : finiteEntry ((⊤ : WithTop ℚ), j) = none := by
  rw [finiteEntry]
  exact WithTop.recTopCoe_top _ _

lemma finitePart_mem (l : List (WithTop ℚ × ℕ)) (p : ℚ × ℕ)
    (hp : p ∈ finitePart l) : (((p.1 : ℚ) : WithTop ℚ), p.2) ∈ l := by
  rw [finitePart, List.mem_filterMap] at hp
  rcases hp with ⟨a, ha, hfa⟩
  obtain ⟨a1, a2⟩ := a
  induction a1 using WithTop.recTopCoe with
  | top =>
    rw [finiteEntry_top] at hfa
    exact absurd hfa (by simp)
  | coe q =>
    rw [finiteEntry_coe] at hfa
    injection hfa with hfa
    rw [← hfa]
    exact ha

lemma finitePart_map_coe (l : List (ℚ × ℕ)) :
    finitePart (l.map (fun p => (((p.1 : ℚ) : WithTop ℚ), p.2))) = l := by
  rw [finitePart, List.filterMap_map]
  have hcomp : (finiteEntry ∘ fun p : ℚ × ℕ => (((p.1 : ℚ) : WithTop ℚ), p.2)) =
      some := by
    funext p
    show finiteEntry (((p.1 : ℚ) : WithTop ℚ), p.2) = some p
    rw [finiteEntry_coe]
  rw [hcomp, List.filterMap_some]

lemma knnList_snd_lt (dist : ℕ → ℕ → ℚ) (N k1 o : ℕ) (p : ℚ × ℕ)
    (hp : p ∈ knnList dist N k1 o) : p.2 < N := by
  have h1 := finitePart_mem _ p hp
  rcases knnPadded_mem dist N k1 o _ h1 with ⟨h2, _⟩ | h2
  · exact h2
  · exfalso
    have h3 := congrArg Prod.fst h2
    simp only at h3
    exact WithTop.coe_ne_top h3

lemma knnList_eq (dist : ℕ → ℕ → ℚ) (N k1 o : ℕ) (h : k1 + 1 ≤ N) :
    knnList dist N k1 o =
      ((List.insertionSort pairLe
          ((List.range N).map (fun j => (dist o j, j)))).take (k1 + 1)).drop 1 := by
  rw [knnList, knnPadded, kdtreeQuery]
  have hrep : k1 + 1 - N = 0 := by omega
  rw [hrep, List.replicate_zero, List.append_nil]
  rw [← List.map_take, ← List.map_drop, finitePart_map_coe]

lemma knnList_length (dist : ℕ → ℕ → ℚ) (N k1 o : ℕ) (h : k1 + 1 ≤ N) :
    (knnList dist N k1 o).length = min k1 (N - 1) := by
  rw [knnList_eq dist N k1 o h, List.length_drop, List.length_take]
  rw [(List.perm_insertionSort _ _).length_eq, List.length_map, List.length_range]
  omega

lemma knnList_sorted (dist : ℕ → ℕ → ℚ) (N k1 o : ℕ) (h : k1 + 1 ≤ N) :
    List.Pairwise pairLe (knnList dist N k1 o) := by
  rw [knnList_eq dist N k1 o h]
  exact List.Pairwise.sublist ((List.drop_sublist _ _).trans (List.take_sublist _ _))
    (List.sorted_insertionSort pairLe _)

lemma countP_self_range (o N : ℕ) (ho : o < N) :
    (List.range N).countP (fun j => decide (j = o)) = 1 := by
  induction N with
  | zero => omega
  | succ n ih =>
    rw [List.range_succ, List.countP_append]
    by_cases hn : o = n
    · subst hn
      have h0 : (List.range o).countP (fun j => decide (j = o)) = 0 := by
        rw [List.countP_eq_zero]
        intro a ha
        have := List.mem_range.mp ha
        simp only [decide_eq_true_iff]
        omega
      rw [h0]
      simp
    · have ho2 : o < n := by omega
      rw [ih ho2]
      have h1 : ([n] : List ℕ).countP (fun j => decide (j = o)) = 0 := by
        rw [List.countP_eq_zero]
        intro a ha
        rw [List.mem_singleton] at ha
        subst ha
        simp only [decide_eq_true_iff]
        omega
      rw [h1]

lemma knnList_not_self (dist : ℕ → ℕ → ℚ) (N k1 o : ℕ) (ho : o < N)
    (hk : k1 + 1 ≤ N) (h0 : dist o o = 0)
    (hpos : ∀ j, j < N → j ≠ o → 0 < dist o j) :
    ∀ p ∈ knnList dist N k1 o, p.2 ≠ o := by
  set base := (List.range N).map (fun j => (dist o j, j)) with hbase
  set s := List.insertionSort pairLe base with hs
  have hperm : s.Perm base := List.perm_insertionSort _ _
  have hsort : List.Pairwise pairLe s := List.sorted_insertionSort _ _
  have hmemo : ((0 : ℚ), o) ∈ s := by
    rw [hperm.mem_iff, hbase]
    have : ((0 : ℚ), o) = (dist o o, o) := by rw [h0]
    rw [this]
    exact List.mem_map.mpr ⟨o, List.mem_range.mpr ho, rfl⟩
  have hcount : s.countP (fun p => decide (p.2 = o)) = 1 := by
    rw [hperm.countP_eq, hbase, List.countP_map]
    exact countP_self_range o N ho
  have hform : ∀ p ∈ s, p.2 < N ∧ p.1 = dist o p.2 := by
    intro p hp
    have hp3 : p ∈ base := hperm.mem_iff.mp hp
    rw [hbase] at hp3
    rcases List.mem_map.mp hp3 with ⟨j, hj, rfl⟩
    exact ⟨List.mem_range.mp hj, rfl⟩
  obtain ⟨q, t, hqt⟩ : ∃ q t, s = q :: t := by
    cases hseq : s with
    | nil =>
      rw [hseq] at hmemo
      exact absurd hmemo (List.not_mem_nil _)
    | cons q t => exact ⟨q, t, rfl⟩
  have hq : q = ((0 : ℚ), o) := by
    rw [hqt] at hmemo
    rcases List.mem_cons.mp hmemo with h | h
    · exact h.symm
    · rw [hqt] at hsort
      have hle : pairLe q ((0 : ℚ), o) := (List.pairwise_cons.mp hsort).1 _ h
      have hqform := hform q (by rw [hqt]; exact List.mem_cons_self _ _)
      by_cases hqo : q.2 = o
      · have hq1 : q.1 = (0 : ℚ) := by
          rw [hqform.2, hqo, h0]
        exact Prod.ext hq1 hqo
      · exfalso
        have hqpos : 0 < q.1 := by
          rw [hqform.2]
          exact hpos q.2 hqform.1 hqo
        rcases hle with hlt | ⟨heq, hle2⟩
        · simp only at hlt
          linarith
        · simp only at heq
          linarith
  have hqtrue : (fun p : ℚ × ℕ => decide (p.2 = o)) q = true := by
    rw [hq]
    simp
  have htcount : t.countP (fun p => decide (p.2 = o)) = 0 := by
    rw [hqt] at hcount
    have hsucc := List.countP_cons_of_pos (fun p : ℚ × ℕ => decide (p.2 = o)) t hqtrue
    omega
  have htnot : ∀ p ∈ t, p.2 ≠ o := by
    intro p hp
    have h2 := List.countP_eq_zero.mp htcount p hp
    simpa using h2
  intro p hp
  apply htnot
  rw [knnList_eq dist N k1 o hk, ← hbase, ← hs, hqt] at hp
  rw [List.take_succ_cons] at hp
  rw [List.drop_one, List.tail_cons] at hp
  exact (List.take_sublist _ _).subset hp

lemma knnList_dists_sorted (dist : ℕ → ℕ → ℚ) (N k1 o : ℕ) (h : k1 + 1 ≤ N) :
    List.Pairwise (fun a b : ℚ => a ≤ b) ((knnList dist N k1 o).map Prod.fst) := by
  refine List.Pairwise.map _ ?_ (knnList_sorted dist N k1 o h)
  intro a b hab
  rcases hab with h | ⟨h, h2⟩
  · exact le_of_lt h
  · exact le_of_eq h

/-! From the chunked pipeline to the sequential reference pass. -/

lemma gbiliObj_congr (k2 : ℕ) (b b' : ℕ → ℤ × WithTop ℚ) (kf kf' : ℕ → List (ℚ × ℕ))
    (obj : ℕ) (hk : kf obj = kf' obj)
    (h2 : ∀ p ∈ kf' obj, kf p.2 = kf' p.2)
    (h3 : ∀ p ∈ mutualCands kf' obj, b p.2 = b' p.2) :
    gbiliObj k2 b kf obj = gbiliObj k2 b' kf' obj := by
  have hmc : mutualCands kf obj = mutualCands kf' obj := by
    rw [mutualCands, mutualCands, hk]
    apply List.filter_congr
    intro p hp
    rw [h2 p hp]
  have hsc : (mutualCands kf' obj).map (candScore b) =
      (mutualCands kf' obj).map (candScore b') := by
    apply List.map_congr_left
    intro p hp
    rw [candScore, candScore, h3 p hp]
  rw [gbiliObj, gbiliObj, hmc, hsc]

lemma merged_flatMap (dist : ℕ → ℕ → ℚ) (ls : List ℕ) (N k1 k2 : ℕ)
    (cs : List (List ℕ)) (hflat : cs.flatten = List.range N) :
    cs.flatMap (gbili k2
      (fun o => ((mergeChunks (cs.map (labeled_nearest dist ls N k1)) o).map Prod.fst).getD (-1, ⊤))
      (fun o => ((mergeChunks (cs.map (labeled_nearest dist ls N k1)) o).map
        (fun v => finitePart v.2)).getD [])) =
    pipelineSeq dist ls N k1 k2 := by
  have hlook : ∀ o, mergeChunks (cs.map (labeled_nearest dist ls N k1)) o =
      if o ∈ cs.flatten then some (phase1Obj dist ls N k1 o) else none := by
    intro o
    exact mergeChunks_lookup (phase1Obj dist ls N k1) cs o
  set bF : ℕ → ℤ × WithTop ℚ :=
    fun o => ((mergeChunks (cs.map (labeled_nearest dist ls N k1)) o).map Prod.fst).getD (-1, ⊤)
    with hbF
  set kF : ℕ → List (ℚ × ℕ) :=
    fun o => ((mergeChunks (cs.map (labeled_nearest dist ls N k1)) o).map
      (fun v => finitePart v.2)).getD []
    with hkF
  have hbuff : ∀ o, o < N → bF o = buffOf dist ls o := by
    intro o ho
    rw [hbF]
    simp only
    rw [hlook o, if_pos (by rw [hflat]; exact List.mem_range.mpr ho)]
    rfl
  have hknn : ∀ o, o < N → kF o = knnOf dist N k1 o := by
    intro o ho
    rw [hkF]
    simp only
    rw [hlook o, if_pos (by rw [hflat]; exact List.mem_range.mpr ho)]
    rfl
  have hassoc : cs.flatMap (gbili k2 bF kF) = (cs.flatten).flatMap (gbiliObj k2 bF kF) := by
    conv_rhs => rw [← List.flatMap_id cs]
    rw [List.flatMap_assoc]
    rfl
  rw [hassoc, hflat, pipelineSeq]
  apply List.flatMap_congr
  intro obj hobj
  have hoN : obj < N := List.mem_range.mp hobj
  apply gbiliObj_congr
  · exact hknn obj hoN
  · intro p hp
    have hp2 : p.2 < N := knnList_snd_lt dist N k1 obj p hp
    rw [hknn p.2 hp2]
  · intro p hp
    have hp1 : p ∈ knnOf dist N k1 obj := (mutualCands_mem _ _ _ hp).1
    have hp2 : p.2 < N := knnList_snd_lt dist N k1 obj p hp1
    rw [hbuff p.2 hp2]

lemma knnPadded_eq_of_le (dist : ℕ → ℕ → ℚ) (N k1 o : ℕ) (h : k1 + 1 ≤ N) :
    knnPadded dist N k1 o =
      (((List.insertionSort pairLe
          ((List.range N).map (fun j => (dist o j, j)))).take (k1 + 1)).drop 1).map
        (fun p => (((p.1 : ℚ) : WithTop ℚ), p.2)) := by
  rw [knnPadded, kdtreeQuery]
  have hrep : k1 + 1 - N = 0 := by omega
  rw [hrep, List.replicate_zero, List.append_nil, ← List.map_take, ← List.map_drop]

lemma knnPadded_snd_lt_of_le (dist : ℕ → ℕ → ℚ) (N k1 o : ℕ) (h : k1 + 1 ≤ N) :
    ∀ p ∈ knnPadded dist N k1 o, p.2 < N := by
  intro p hp
  rcases knnPadded_mem dist N k1 o p hp with ⟨h2, _⟩ | h2
  · exact h2
  · exfalso
    rw [knnPadded_eq_of_le dist N k1 o h] at hp
    rcases List.mem_map.mp hp with ⟨q, hq, rfl⟩
    have h3 := congrArg Prod.fst h2
    simp only at h3
    exact WithTop.coe_ne_top h3

lemma knnPadded_top_mem (dist : ℕ → ℕ → ℚ) (N k1 o : ℕ) (hN : 1 ≤ N)
    (hk : N < k1 + 1) : ((⊤ : WithTop ℚ), N) ∈ knnPadded dist N k1 o := by
  rw [knnPadded, kdtreeQuery]
  have hlen : ((List.insertionSort pairLe
      ((List.range N).map (fun j => (dist o j, j)))).map
        (fun p => (((p.1 : ℚ) : WithTop ℚ), p.2))).length = N := by
    rw [List.length_map, (List.perm_insertionSort _ _).length_eq, List.length_map,
      List.length_range]
  rw [List.take_of_length_le (by rw [hlen]; omega)]
  rw [List.drop_append_of_le_length (by rw [hlen]; omega)]
  refine List.mem_append.mpr (Or.inr ?_)
  exact List.mem_replicate.mpr ⟨by omega, rfl⟩

lemma phase2Guard_true (dist : ℕ → ℕ → ℚ) (ls : List ℕ) (N k1 : ℕ)
    (cs : List (List ℕ)) (hflat : cs.flatten = List.range N) (hk : k1 + 1 ≤ N) :
    phase2Guard (mergeChunks (cs.map (labeled_nearest dist ls N k1))) cs = true := by
  have hlook : ∀ o : ℕ, mergeChunks (cs.map (labeled_nearest dist ls N k1)) o =
      if o ∈ cs.flatten then some (phase1Obj dist ls N k1 o) else none :=
    fun o => mergeChunks_lookup (phase1Obj dist ls N k1) cs o
  rw [phase2Guard, List.all_eq_true]
  intro c hc
  rw [List.all_eq_true]
  intro o ho
  have hoN : o < N := by
    have ho2 : o ∈ cs.flatten := List.mem_flatten.mpr ⟨c, hc, ho⟩
    rw [hflat] at ho2
    exact List.mem_range.mp ho2
  rw [hlook o, if_pos (by rw [hflat]; exact List.mem_range.mpr hoN)]
  rw [List.all_eq_true]
  intro p hp
  have hp2 : p ∈ knnPadded dist N k1 o := hp
  have hpN : p.2 < N := knnPadded_snd_lt_of_le dist N k1 o hk p hp2
  rw [Bool.or_eq_true]
  right
  rw [hlook p.2, if_pos (by rw [hflat]; exact List.mem_range.mpr hpN)]
  rfl

lemma phase2Guard_false (dist : ℕ → ℕ → ℚ) (ls : List ℕ) (N k1 : ℕ)
    (cs : List (List ℕ)) (hflat : cs.flatten = List.range N) (hN : 1 ≤ N)
    (hk : N < k1 + 1) :
    phase2Guard (mergeChunks (cs.map (labeled_nearest dist ls N k1))) cs = false := by
  have hlook : ∀ o : ℕ, mergeChunks (cs.map (labeled_nearest dist ls N k1)) o =
      if o ∈ cs.flatten then some (phase1Obj dist ls N k1 o) else none :=
    fun o => mergeChunks_lookup (phase1Obj dist ls N k1) cs o
  apply Bool.eq_false_iff.mpr
  intro hall
  rw [phase2Guard, List.all_eq_true] at hall
  obtain ⟨c, hc, h0c⟩ : ∃ c ∈ cs, (0 : ℕ) ∈ c := by
    have h0 : (0 : ℕ) ∈ cs.flatten := by
      rw [hflat]
      exact List.mem_range.mpr (by omega)
    exact List.mem_flatten.mp h0
  have h1 := hall c hc
  rw [List.all_eq_true] at h1
  have h2 := h1 0 h0c
  rw [hlook 0, if_pos (by rw [hflat]; exact List.mem_range.mpr (by omega))] at h2
  rw [List.all_eq_true] at h2
  have h3 := h2 ((⊤ : WithTop ℚ), N) (knnPadded_top_mem dist N k1 0 hN hk)
  rw [Bool.or_eq_true] at h3
  rcases h3 with h3 | h3
  · simp only [decide_eq_true_iff] at h3
    omega
  · rw [hlook N, if_neg (by rw [hflat]; simp)] at h3
    simp at h3

lemma pipelineBody_eq (dist : ℕ → ℕ → ℚ) (ls : List ℕ) (N k1 k2 : ℕ)
    (cs : List (List ℕ)) (hflat : cs.flatten = List.range N) (hk : k1 + 1 ≤ N) :
    pipelineBody dist ls N k1 k2 cs = Except.ok (pipelineSeq dist ls N k1 k2) := by
  simp only [pipelineBody]
  rw [if_pos (phase2Guard_true dist ls N k1 cs hflat hk)]
  exact congrArg Except.ok (merged_flatMap dist ls N k1 k2 cs hflat)

lemma pipelineBody_crash (dist : ℕ → ℕ → ℚ) (ls : List ℕ) (N k1 k2 : ℕ)
    (cs : List (List ℕ)) (hflat : cs.flatten = List.range N) (hN : 1 ≤ N)
    (hk : N < k1 + 1) :
    pipelineBody dist ls N k1 k2 cs = Except.error PyErr.keyError := by
  simp only [pipelineBody]
  rw [if_neg (by
    rw [phase2Guard_false dist ls N k1 cs hflat hN hk]
    exact Bool.false_ne_true)]

lemma pipeline_eq_seq (dist : ℕ → ℕ → ℚ) (ls : List ℕ) (N k1 k2 P : ℕ)
    (h1 : 1 ≤ P) (h2 : P ≤ N) (hk : k1 + 1 ≤ N) :
    pipeline dist ls N k1 k2 (P : ℤ) = Except.ok (pipelineSeq dist ls N k1 k2) := by
  rw [pipeline, mainChunks_valid N P h1 h2]
  have hstep : 1 ≤ N / P := (Nat.one_le_div_iff (by omega)).mpr h2
  have hflat := chunksOf_flatten N (N / P) hstep
  show pipelineBody dist ls N k1 k2 (chunksOf N (N / P)) = _
  exact pipelineBody_eq dist ls N k1 k2 _ hflat hk

lemma pipeline_crash (dist : ℕ → ℕ → ℚ) (ls : List ℕ) (N k1 k2 P : ℕ)
    (h1 : 1 ≤ P) (h2 : P ≤ N) (hk : N < k1 + 1) :
    pipeline dist ls N k1 k2 (P : ℤ) = Except.error PyErr.keyError := by
  rw [pipeline, mainChunks_valid N P h1 h2]
  have hstep : 1 ≤ N / P := (Nat.one_le_div_iff (by omega)).mpr h2
  have hflat := chunksOf_flatten N (N / P) hstep
  show pipelineBody dist ls N k1 k2 (chunksOf N (N / P)) = _
  exact pipelineBody_crash dist ls N k1 k2 _ hflat (by omega) hk

lemma pipeline_ok_out (dist : ℕ → ℕ → ℚ) (ls : List ℕ) (N k1 k2 P : ℕ)
    (h1 : 1 ≤ P) (h2 : P ≤ N) (out : List (ℕ × ℕ × ℚ))
    (hout : pipeline dist ls N k1 k2 (P : ℤ) = Except.ok out) :
    out = pipelineSeq dist ls N k1 k2 := by
  by_cases hk : k1 + 1 ≤ N
  · rw [pipeline_eq_seq dist ls N k1 k2 P h1 h2 hk] at hout
    injection hout with hout
    exact hout.symm
  · rw [pipeline_crash dist ls N k1 k2 P h1 h2 (by omega)] at hout
    exact absurd hout (by simp)

lemma sum_single_bound (o k2 : ℕ) (f : ℕ → ℕ) :
    ∀ l : List ℕ, l.Nodup → (∀ x ∈ l, x ≠ o → f x = 0) → (∀ x, f x ≤ k2) →
      (l.map f).sum ≤ k2 := by
  intro l
  induction l with
  | nil =>
    intro _ _ _
    simp
  | cons x l ih =>
    intro hnd hzero hle
    rw [List.map_cons, List.sum_cons]
    by_cases hx : x = o
    · subst hx
      have hrest : (l.map f).sum = 0 := by
        apply List.sum_eq_zero
        intro y hy
        rcases List.mem_map.mp hy with ⟨z, hz, rfl⟩
        apply hzero z (List.mem_cons_of_mem _ hz)
        intro hzo
        subst hzo
        exact (List.nodup_cons.mp hnd).1 hz
      rw [hrest]
      simpa using hle x
    · rw [hzero x (List.mem_cons_self _ _) hx]
      simp only [Nat.zero_add]
      exact ih (List.nodup_cons.mp hnd).2
        (fun y hy => hzero y (List.mem_cons_of_mem _ hy)) hle

lemma gbiliObj_countP_le (k2 : ℕ) (b : ℕ → ℤ × WithTop ℚ) (kf : ℕ → List (ℚ × ℕ))
    (x : ℕ) (p : ℕ × ℕ × ℚ → Bool) :
    (gbiliObj k2 b kf x).countP p ≤ k2 := by
  calc (gbiliObj k2 b kf x).countP p ≤ (gbiliObj k2 b kf x).length :=
        List.countP_le_length p
  _ = min k2 (mutualCands kf x).length := gbiliObj_length k2 b kf x
  _ ≤ k2 := Nat.min_le_left _ _

lemma pipelineSeq_countP (dist : ℕ → ℕ → ℚ) (ls : List ℕ) (N k1 k2 o : ℕ) :
    (pipelineSeq dist ls N k1 k2).countP (fun e => decide (e.1 = o)) ≤ k2 := by
  rw [pipelineSeq, List.countP_flatMap]
  apply sum_single_bound o k2 _ (List.range N) (List.nodup_range N)
  · intro x _ hxo
    simp only [Function.comp_apply]
    apply List.countP_eq_zero.mpr
    intro e he
    have hfst := gbiliObj_fst _ _ _ _ _ he
    simp only [decide_eq_true_iff]
    rw [hfst]
    exact hxo
  · intro x
    simp only [Function.comp_apply]
    exact gbiliObj_countP_le _ _ _ _ _

lemma flatten_keys {β : Type} (g : ℕ → β) (cs : List (List ℕ)) :
    (cs.map (fun c => c.map (fun o => (o, g o)))).flatten.map Prod.fst = cs.flatten := by
  rw [← List.flatMap_def, List.map_flatMap]
  rw [← List.flatMap_id cs]
  apply List.flatMap_congr
  intro c hc
  have hcomp : (Prod.fst ∘ fun o : ℕ => (o, g o)) = id := rfl
  rw [List.map_map, hcomp, List.map_id]
  rfl

/-! Concrete inputs for witnesses and counterexamples.  Both are genuine
one-dimensional Euclidean instances: `distTwo` realises points (0) and (7),
`distDup` realises points (0), (0), (1) (objects 0 and 1 duplicated). -/

/-- Two objects at Euclidean distance 7 (1-D points 0 and 7). -/
def distTwo : ℕ → ℕ → ℚ := fun i j => if i = j then 0 else 7

/-- Three objects, 0 and 1 with identical feature vectors and 2 at distance 1
from both (1-D points 0, 0, 1). -/
def distDup : ℕ → ℕ → ℚ := fun i j => if i = j ∨ (i ≤ 1 ∧ j ≤ 1) then 0 else 1

/-! Claim theorems. -/

/-- C1: every edge (o, n, w) emitted by phase 2 is mutual — o appears in
KnnList[n] — and its weight is 1 / (1 + d(o, n)) where d(o, n) is the distance
to n recorded in KnnList[o]; no non-mutual edge is ever emitted. -/
theorem claim_C1 (dist : ℕ → ℕ → ℚ) (ls : List ℕ) (N k1 k2 P : ℕ)
    (h1 : 1 ≤ P) (h2 : P ≤ N) (out : List (ℕ × ℕ × ℚ))
    (hout : pipeline dist ls N k1 k2 (P : ℤ) = Except.ok out) :
    ∀ e ∈ out, ∃ p ∈ knnList dist N k1 e.1,
      p.2 = e.2.1 ∧ e.2.2 = 1 / (1 + p.1) ∧
      e.1 ∈ (knnList dist N k1 e.2.1).map Prod.snd := by
  have hseq := pipeline_ok_out dist ls N k1 k2 P h1 h2 out hout
  subst hseq
  intro e he
  rw [pipelineSeq] at he
  rcases List.mem_flatMap.mp he with ⟨obj, hobj, he2⟩
  rcases gbiliObj_mem _ _ _ _ _ he2 with ⟨p, hp, rfl⟩
  rcases mutualCands_mem _ _ _ hp with ⟨hpk, hne, hmut⟩
  exact ⟨p, hpk, rfl, rfl, hmut⟩

/-- Witness for C1 at a concrete valid run (N = 2, k1 = 1, k2 = 3, one
worker). -/
theorem claim_C1_witness :
    1 ≤ 1 ∧ 1 ≤ 2 ∧
      pipeline distTwo [0] 2 1 3 ((1 : ℕ) : ℤ) = Except.ok (pipelineSeq distTwo [0] 2 1 3) ∧
      ∀ e ∈ pipelineSeq distTwo [0] 2 1 3, ∃ p ∈ knnList distTwo 2 1 e.1,
        p.2 = e.2.1 ∧ e.2.2 = 1 / (1 + p.1) ∧
        e.1 ∈ (knnList distTwo 2 1 e.2.1).map Prod.snd :=
  ⟨le_refl 1, by decide, rfl,
    claim_C1 distTwo [0] 2 1 3 1 (le_refl 1) (by decide) _ rfl⟩

/-- C2: per object, phase 2 ranks the surviving mutual candidates by ascending
informativeness score and emits exactly the first k2 of them (all of them when
fewer qualify), so the number of emitted edges per object is
min k2 (number of candidates); and over any valid run at most k2 edges have a
given object as their source. -/
theorem claim_C2 (k2 : ℕ) :
    (∀ (buff : ℕ → ℤ × WithTop ℚ) (dicKnn : ℕ → List (ℚ × ℕ)) (obj : ℕ),
      (gbiliObj k2 buff dicKnn obj).length = min k2 (mutualCands dicKnn obj).length ∧
      ((argsort ((mutualCands dicKnn obj).map (candScore buff))).take k2).map
          (fun i => ((mutualCands dicKnn obj).map (candScore buff)).getD i ⊤) =
        (List.insertionSort (fun a b : WithTop ℚ => a ≤ b)
          ((mutualCands dicKnn obj).map (candScore buff))).take k2 ∧
      ∀ e ∈ gbiliObj k2 buff dicKnn obj, ∃ p ∈ mutualCands dicKnn obj, e = candEdge obj p) ∧
    ∀ (dist : ℕ → ℕ → ℚ) (ls : List ℕ) (N k1 P : ℕ), 1 ≤ P → P ≤ N →
      ∀ out, pipeline dist ls N k1 k2 (P : ℤ) = Except.ok out →
        ∀ o, out.countP (fun e => decide (e.1 = o)) ≤ k2 := by
  constructor
  · intro buff dicKnn obj
    refine ⟨gbiliObj_length _ _ _ _, ?_, ?_⟩
    · rw [List.map_take, argsort_map_getD]
    · intro e he
      rcases gbiliObj_mem _ _ _ _ _ he with ⟨p, hp, rfl⟩
      exact ⟨p, hp, rfl⟩
  · intro dist ls N k1 P hP1 hPN out hout o
    have hseq := pipeline_ok_out dist ls N k1 k2 P hP1 hPN out hout
    subst hseq
    exact pipelineSeq_countP dist ls N k1 k2 o

/-- Witness for C2 at a concrete valid run (k2 = 3, N = 2, k1 = 1, one
worker). -/
theorem claim_C2_witness :
    (gbiliObj 3 (buffOf distTwo [0]) (knnOf distTwo 2 1) 0).length =
        min 3 (mutualCands (knnOf distTwo 2 1) 0).length ∧
    1 ≤ 1 ∧ 1 ≤ 2 ∧
    pipeline distTwo [0] 2 1 3 ((1 : ℕ) : ℤ) = Except.ok (pipelineSeq distTwo [0] 2 1 3) ∧
    (pipelineSeq distTwo [0] 2 1 3).countP (fun e => decide (e.1 = 0)) ≤ 3 :=
  ⟨((claim_C2 3).1 (buffOf distTwo [0]) (knnOf distTwo 2 1) 0).1,
   le_refl 1, by decide, rfl,
   (claim_C2 3).2 distTwo [0] 2 1 1 (le_refl 1) (by decide) _ rfl 0⟩

/-- C3 counterexample: with labeled set [0, 1] (two members) and object 0
itself labeled, the scan maps object 0 to itself at distance 0 — the code
never excludes the object from the labeled scan, refuting the claim that a
labeled object is never mapped to itself when the labeled set has at least two
members. -/
theorem claim_C3_counterexample :
    buffOf distTwo [0, 1] 0 = ((0 : ℤ), ((0 : ℚ) : WithTop ℚ)) := by decide

/-- C3 amended: NearestLabeled[o] is the labeled vertex at minimum distance
from o, ties resolved in favor of the first labeled vertex in iteration order;
the scan does not exclude o itself, so a labeled object can be mapped to
itself (at distance 0) even when the labeled set has two or more members. -/
theorem claim_C3_amended (dist : ℕ → ℕ → ℚ) (ls : List ℕ) (o : ℕ) (h : ls ≠ []) :
    ∃ j, ∃ hj : j < ls.length,
      buffOf dist ls o = (((ls[j] : ℕ) : ℤ), ((dist o ls[j] : ℚ) : WithTop ℚ)) ∧
      (∀ i, ∀ hi : i < ls.length, dist o ls[j] ≤ dist o ls[i]) ∧
      (∀ i, ∀ hi : i < ls.length, i < j → dist o ls[j] < dist o ls[i]) :=
  labeledNearestScan_spec (fun l => dist o l) ls h

/-- Witness for the amended C3 at a concrete input. -/
theorem claim_C3_witness :
    ([0, 1] : List ℕ) ≠ [] ∧
    ∃ j, ∃ hj : j < ([0, 1] : List ℕ).length,
      buffOf distTwo [0, 1] 0 =
        (((([0, 1] : List ℕ)[j] : ℕ) : ℤ), ((distTwo 0 ([0, 1] : List ℕ)[j] : ℚ) : WithTop ℚ)) ∧
      (∀ i, ∀ hi : i < ([0, 1] : List ℕ).length,
        distTwo 0 ([0, 1] : List ℕ)[j] ≤ distTwo 0 ([0, 1] : List ℕ)[i]) ∧
      (∀ i, ∀ hi : i < ([0, 1] : List ℕ).length, i < j →
        distTwo 0 ([0, 1] : List ℕ)[j] < distTwo 0 ([0, 1] : List ℕ)[i]) :=
  ⟨by decide, claim_C3_amended distTwo [0, 1] 0 (by decide)⟩

/-- C4 counterexample: objects 0 and 1 have identical feature vectors, so the
index returns object 0 (smaller id, same distance 0) as the first result of
the query for object 1; discarding the first result leaves object 1 inside its
own KnnList — refuting the claim that KnnList[o] never contains o.  Here
N = 3 ≥ k1 + 1 = 2, so the claim's regime applies. -/
theorem claim_C4_counterexample :
    (knnList distDup 3 1 1).map Prod.snd = [1] := by decide

/-- C4 amended: KnnList[o] — built by querying the index for k1 + 1 neighbours
and discarding the first result — has exactly min k1 (N - 1) entries sorted
ascending by distance; none of them is o itself provided o is the unique
object at distance 0 from o (no duplicate feature vector), otherwise o can
survive inside its own list. -/
theorem claim_C4_amended (dist : ℕ → ℕ → ℚ) (N k1 o : ℕ) (ho : o < N)
    (hk : k1 + 1 ≤ N) (h0 : dist o o = 0)
    (hpos : ∀ j, j < N → j ≠ o → 0 < dist o j) :
    (knnList dist N k1 o).length = min k1 (N - 1) ∧
    List.Pairwise (fun a b : ℚ => a ≤ b) ((knnList dist N k1 o).map Prod.fst) ∧
    ∀ p ∈ knnList dist N k1 o, p.2 ≠ o :=
  ⟨knnList_length dist N k1 o hk, knnList_dists_sorted dist N k1 o hk,
   knnList_not_self dist N k1 o ho hk h0 hpos⟩

/-- Witness for the amended C4 at a concrete duplicate-free input. -/
theorem claim_C4_witness :
    0 < 2 ∧ 1 + 1 ≤ 2 ∧ distTwo 0 0 = 0 ∧
      (∀ j, j < 2 → j ≠ 0 → 0 < distTwo 0 j) ∧
      ((knnList distTwo 2 1 0).length = min 1 (2 - 1) ∧
        List.Pairwise (fun a b : ℚ => a ≤ b) ((knnList distTwo 2 1 0).map Prod.fst) ∧
        ∀ p ∈ knnList distTwo 2 1 0, p.2 ≠ 0) :=
  ⟨by decide, by decide, by decide, by decide,
    claim_C4_amended distTwo 2 1 0 (by decide) (by decide) (by decide) (by decide)⟩

/-- C5 counterexample: with N = 2 objects and k1 = 5 (dataset smaller than
k1 + 1 = 6), the chunk loop schedules its worker (chunk [0, 1]) and the run
then dies with KeyError in phase 2 (the padded index N = 2 misses the merged
dictionary) — not with an InsufficientDataError raised before scheduling,
which exists nowhere in the code. -/
theorem claim_C5_counterexample :
    mainChunks 2 1 = Except.ok [[0, 1]] ∧
      pipeline distTwo [0] 2 5 3 1 = Except.error PyErr.keyError :=
  ⟨rfl, rfl⟩

/-- C5 amended: the code performs no dataset-size pre-flight check and defines
no InsufficientDataError.  When the dataset has fewer than k1 + 1 objects and
1 ≤ P ≤ N, the chunk loop still schedules at least one worker and phase 1
completes (the query pads missing neighbours with distance +inf and index N);
every phase-2 worker then crashes with KeyError at the dic_knn[N] lookup,
main dies at receiver.recv(), and the run fails — after scheduling, with no
output. -/
theorem claim_C5_amended (dist : ℕ → ℕ → ℚ) (ls : List ℕ) (N k1 k2 P : ℕ)
    (h1 : 1 ≤ P) (h2 : P ≤ N) (hk : N < k1 + 1) :
    (∃ cs, mainChunks N (P : ℤ) = Except.ok cs ∧ 1 ≤ cs.length) ∧
      pipeline dist ls N k1 k2 (P : ℤ) = Except.error PyErr.keyError := by
  constructor
  · refine ⟨chunksOf N (N / P), mainChunks_valid N P h1 h2, ?_⟩
    rw [chunksOf_length]
    have hstep : 1 ≤ N / P := (Nat.one_le_div_iff (by omega)).mpr h2
    have hN : 1 ≤ N := le_trans h1 h2
    rw [Nat.one_le_div_iff (by omega)]
    omega
  · exact pipeline_crash dist ls N k1 k2 P h1 h2 hk

/-- Witness for the amended C5 at N = 2, k1 = 5, one worker. -/
theorem claim_C5_witness :
    1 ≤ 1 ∧ 1 ≤ 2 ∧ 2 < 5 + 1 ∧
      ((∃ cs, mainChunks 2 ((1 : ℕ) : ℤ) = Except.ok cs ∧ 1 ≤ cs.length) ∧
        pipeline distTwo [0] 2 5 3 ((1 : ℕ) : ℤ) = Except.error PyErr.keyError) :=
  ⟨le_refl 1, by decide, by decide,
    claim_C5_amended distTwo [0] 2 5 3 1 (le_refl 1) (by decide) (by decide)⟩

/-- C6 counterexample: N = 5, P = 2.  The claim says exactly P = 2 chunks of
size ceil(5 / 2) = 3 (last possibly smaller); the code produces 3 chunks of
sizes 2, 2, 1 (chunk size is floor(N / P), and the chunk count is
ceil(N / floor(N / P)) which exceeds P). -/
theorem claim_C6_counterexample :
    Except.map (fun cs => (cs.length, cs.map List.length)) (mainChunks 5 2) =
      Except.ok (3, [2, 2, 1]) := rfl

/-- C6 amended: for 1 ≤ P ≤ N the chunk loop splits [0, N) into
ceil(N / floor(N / P)) contiguous, non-overlapping chunks of size
floor(N / P) — all full-size except possibly the last — and every object id in
[0, N) lies in exactly one chunk; the number of chunks can exceed P. -/
theorem claim_C6_amended (N P : ℕ) (h1 : 1 ≤ P) (h2 : P ≤ N) :
    ∃ cs, mainChunks N (P : ℤ) = Except.ok cs ∧
      cs.flatten = List.range N ∧
      cs.length = (N + N / P - 1) / (N / P) ∧
      (∀ c ∈ cs, c.length ≤ N / P) ∧
      ∀ i, ∀ hi : i < cs.length, i + 1 < cs.length →
        (cs.get ⟨i, hi⟩).length = N / P := by
  have hstep : 1 ≤ N / P := (Nat.one_le_div_iff (by omega)).mpr h2
  exact ⟨chunksOf N (N / P), mainChunks_valid N P h1 h2,
    chunksOf_flatten N (N / P) hstep, chunksOf_length N (N / P),
    fun c hc => chunksOf_mem_length N (N / P) c hc,
    fun i hi hlast => chunksOf_get_length N (N / P) hstep i hi hlast⟩

/-- Witness for the amended C6 at N = 5, P = 2. -/
theorem claim_C6_witness :
    1 ≤ 2 ∧ 2 ≤ 5 ∧
      ∃ cs, mainChunks 5 ((2 : ℕ) : ℤ) = Except.ok cs ∧
        cs.flatten = List.range 5 ∧
        cs.length = (5 + 5 / 2 - 1) / (5 / 2) ∧
        (∀ c ∈ cs, c.length ≤ 5 / 2) ∧
        ∀ i, ∀ hi : i < cs.length, i + 1 < cs.length →
          (cs.get ⟨i, hi⟩).length = 5 / 2 :=
  ⟨by decide, by decide, claim_C6_amended 5 2 (by decide) (by decide)⟩

/-- C7: for every valid N, k1, k2 and worker count P, after the phase-1
outputs are merged, every object in [0, N) has exactly one entry in the merged
dictionaries — the concatenated key list is exactly 0..N-1 and every lookup of
an object below N yields that object's phase-1 value — independent of the
partition. -/
theorem claim_C7 (dist : ℕ → ℕ → ℚ) (ls : List ℕ) (N k1 k2 P : ℕ)
    (h1 : 1 ≤ P) (h2 : P ≤ N) :
    ∃ cs, mainChunks N (P : ℤ) = Except.ok cs ∧
      (cs.map (labeled_nearest dist ls N k1)).flatten.map Prod.fst = List.range N ∧
      ∀ o, o < N →
        mergeChunks (cs.map (labeled_nearest dist ls N k1)) o =
          some (phase1Obj dist ls N k1 o) := by
  have hstep : 1 ≤ N / P := (Nat.one_le_div_iff (by omega)).mpr h2
  have hflat := chunksOf_flatten N (N / P) hstep
  refine ⟨chunksOf N (N / P), mainChunks_valid N P h1 h2, ?_, ?_⟩
  · have hkeys := flatten_keys (phase1Obj dist ls N k1) (chunksOf N (N / P))
    rw [hflat] at hkeys
    exact hkeys
  · intro o ho
    have hl := mergeChunks_lookup (phase1Obj dist ls N k1) (chunksOf N (N / P)) o
    rw [hflat] at hl
    rw [if_pos (List.mem_range.mpr ho)] at hl
    exact hl

/-- Witness for C7 at N = 5, P = 2, k1 = 1. -/
theorem claim_C7_witness :
    1 ≤ 2 ∧ 2 ≤ 5 ∧
      ∃ cs, mainChunks 5 ((2 : ℕ) : ℤ) = Except.ok cs ∧
        (cs.map (labeled_nearest distTwo [0] 5 1)).flatten.map Prod.fst = List.range 5 ∧
        ∀ o, o < 5 →
          mergeChunks (cs.map (labeled_nearest distTwo [0] 5 1)) o =
            some (phase1Obj distTwo [0] 5 1 o) :=
  ⟨by decide, by decide, claim_C7 distTwo [0] 5 1 3 2 (by decide) (by decide)⟩

/-- C8 counterexample: with worker count P = -1 (P ≤ 0) and N = 4 the run does
not fail at all: `part` is negative, `xrange(0, N, part)` is empty, no worker
is scheduled and an empty edge list is produced — no InvalidConfigurationError
exists anywhere in the code. -/
theorem claim_C8_counterexample :
    mainChunks 4 (-1) = Except.ok [] := rfl

/-- C8 amended: the code raises no InvalidConfigurationError.  P = 0 fails with
ZeroDivisionError at the division `part = obj_count / threads`; 0 < P with
N < P makes `part` zero, which fails with ValueError at
`xrange(0, obj_count, 0)`; P < 0 (with N ≥ 1) does not fail at all: `part` is
negative, the range is empty, and the run completes with an empty chunk
list. -/
theorem claim_C8_amended (N : ℕ) (P : ℤ) :
    (P = 0 → mainChunks N P = Except.error PyErr.zeroDivisionError) ∧
    (0 < P → (N : ℤ) < P → mainChunks N P = Except.error PyErr.valueError) ∧
    (P < 0 → 1 ≤ N → mainChunks N P = Except.ok []) := by
  refine ⟨?_, ?_, ?_⟩
  · intro h
    rw [mainChunks, if_pos h]
  · intro hpos hlt
    obtain ⟨p, rfl⟩ : ∃ p : ℕ, P = (p : ℤ) :=
      ⟨P.toNat, (Int.toNat_of_nonneg (le_of_lt hpos)).symm⟩
    have hp : N < p := by exact_mod_cast hlt
    have hfd : Int.fdiv (N : ℤ) (p : ℤ) = ((N / p : ℕ) : ℤ) := by
      rw [Int.fdiv_eq_tdiv (by positivity) (by positivity), Int.ofNat_tdiv]
    have hdiv0 : N / p = 0 := Nat.div_eq_of_lt hp
    have hp0 : ¬(p : ℤ) = 0 := by
      have : 0 < p := by omega
      exact_mod_cast (by omega : ¬p = 0)
    rw [mainChunks, if_neg hp0]
    simp only [hfd, hdiv0, Nat.cast_zero, if_pos]
  · intro hneg hN
    obtain ⟨m, rfl⟩ : ∃ m : ℕ, N = m + 1 := ⟨N - 1, by omega⟩
    obtain ⟨n, rfl⟩ : ∃ n : ℕ, P = Int.negSucc n := by
      cases P with
      | ofNat k => exact absurd hneg (Int.natCast_nonneg k).not_lt
      | negSucc n => exact ⟨n, rfl⟩
    have hne : ¬(Int.negSucc n = 0) := by
      intro h
      cases h
    have hfd : Int.fdiv ((m + 1 : ℕ) : ℤ) (Int.negSucc n) = Int.negSucc (m / (n + 1)) := rfl
    rw [mainChunks, if_neg hne]
    simp only [hfd]
    rw [if_neg (fun h => Int.noConfusion h), if_pos (Int.negSucc_lt_zero _)]

/-- Witness for the amended C8: the three behaviours at concrete inputs. -/
theorem claim_C8_witness :
    mainChunks 3 0 = Except.error PyErr.zeroDivisionError ∧
    mainChunks 2 5 = Except.error PyErr.valueError ∧
    mainChunks 4 (-2) = Except.ok [] :=
  ⟨(claim_C8_amended 3 0).1 rfl,
   (claim_C8_amended 2 5).2.1 (by decide) (by decide),
   (claim_C8_amended 4 (-2)).2.2 (by decide) (by decide)⟩

/-- C9: two runs of the pipeline on identical input with the same k1 and k2
but different (valid) worker counts produce an identical edge list — same
pairs, same weights, with score ties broken by the fixed deterministic rule of
the argsort model. -/
theorem claim_C9 (dist : ℕ → ℕ → ℚ) (ls : List ℕ) (N k1 k2 P Q : ℕ)
    (hP1 : 1 ≤ P) (hPN : P ≤ N) (hQ1 : 1 ≤ Q) (hQN : Q ≤ N) :
    pipeline dist ls N k1 k2 (P : ℤ) = pipeline dist ls N k1 k2 (Q : ℤ) := by
  by_cases hk : k1 + 1 ≤ N
  · rw [pipeline_eq_seq dist ls N k1 k2 P hP1 hPN hk,
      pipeline_eq_seq dist ls N k1 k2 Q hQ1 hQN hk]
  · rw [pipeline_crash dist ls N k1 k2 P hP1 hPN (by omega),
      pipeline_crash dist ls N k1 k2 Q hQ1 hQN (by omega)]

/-- Witness for C9: worker count 1 versus worker count N at N = 2. -/
theorem claim_C9_witness :
    1 ≤ 1 ∧ 1 ≤ 2 ∧ 1 ≤ 2 ∧ 2 ≤ 2 ∧
      pipeline distTwo [0] 2 1 3 ((1 : ℕ) : ℤ) = pipeline distTwo [0] 2 1 3 ((2 : ℕ) : ℤ) :=
  ⟨le_refl 1, by decide, by decide, le_refl 2,
    claim_C9 distTwo [0] 2 1 3 1 2 (le_refl 1) (by decide) (by decide) (le_refl 2)⟩

/-- C10: phase 2 skips any KNN entry equal to the originating object before
the mutuality check, so every emitted edge has distinct endpoints — no
self-loop is ever produced, even when duplicate feature vectors place an
object inside its own KnnList. -/
theorem claim_C10 (dist : ℕ → ℕ → ℚ) (ls : List ℕ) (N k1 k2 P : ℕ)
    (h1 : 1 ≤ P) (h2 : P ≤ N) (out : List (ℕ × ℕ × ℚ))
    (hout : pipeline dist ls N k1 k2 (P : ℤ) = Except.ok out) :
    ∀ e ∈ out, e.1 ≠ e.2.1 := by
  have hseq := pipeline_ok_out dist ls N k1 k2 P h1 h2 out hout
  subst hseq
  intro e he
  rw [pipelineSeq] at he
  rcases List.mem_flatMap.mp he with ⟨obj, hobj, he2⟩
  rcases gbiliObj_mem _ _ _ _ _ he2 with ⟨p, hp, rfl⟩
  exact (mutualCands_mem _ _ _ hp).2.1

/-- Witness for C10 at a concrete run with duplicate feature vectors (objects
0 and 1 coincide), where object 1 appears inside its own KnnList and is
skipped. -/
theorem claim_C10_witness :
    1 ≤ 1 ∧ 1 ≤ 3 ∧
      pipeline distDup [0] 3 1 2 ((1 : ℕ) : ℤ) = Except.ok (pipelineSeq distDup [0] 3 1 2) ∧
      ∀ e ∈ pipelineSeq distDup [0] 3 1 2, e.1 ≠ e.2.1 :=
  ⟨le_refl 1, by decide, rfl,
    claim_C10 distDup [0] 3 1 2 1 (le_refl 1) (by decide) _ rfl⟩
